import Mathlib

/-
Shallow embedding of the sandbox pool allocator and lease-timeout reaper of
`src/bk/main_DesktopEnv_Error.py` (the OSgym VM pool manager).

The persisted state consists of three collections (the contents of
`available.json`, `active.json` and `vm_map.json`):
  * `available` : the free VM ids (a JSON list of ints),
  * `active`    : the leased VM ids (a JSON list of ints),
  * `vm_map`    : the lease records, a dict keyed by VM id.

A lease record is a JSON object that may carry the keys `"timeout"`,
`"lifetime"` and `"visited"`; the code reads each with a default
(`entry.get("visited", False)`, `entry.get("lifetime", 0)`,
`entry.get("timeout", 0)`), so each field is modelled as an `Option`
with the absent key rendered as `none`.

All operations below are executed under the locks (`vm_lock` plus the file
lock), so each one is modelled as a pure state transformer; interleavings
reduce to sequences of these atomic operations.
-/

namespace OSGym

/-- A lease record: the dict stored as `vm_map[vm_id]`.  `timeout` is the
`"timeout"` key, `lifetime` the `"lifetime"` key, `visited` the `"visited"`
key; `none` models an absent key (the code reads each key with a default). -/
structure LeaseRecord where
  timeout : Option Int
  lifetime : Option Int
  visited : Option Bool
deriving DecidableEq, Repr

/-- The persisted pool state: the free list, the leased list, and the lease
record map (a Python dict, modelled as an insertion-ordered association list
with unique keys). -/
structure PoolState where
  available : List Int
  active : List Int
  vmMap : List (Int × LeaseRecord)
deriving DecidableEq, Repr

/-- Dict lookup `m.get(k)`: the value of the first (in a real dict, only)
entry with key `k`. -/
def getKey? : List (Int × LeaseRecord) → Int → Option LeaseRecord
  | [], _ => none
  | p :: rest, k => if p.1 = k then some p.2 else getKey? rest k

/-- Dict update `m[k] = v`: replace the value at key `k` in place if the key
is present, else append the new entry (Python dicts preserve insertion
order). -/
def setKey : List (Int × LeaseRecord) → Int → LeaseRecord → List (Int × LeaseRecord)
  | [], k, v => [(k, v)]
  | p :: rest, k, v => if p.1 = k then (k, v) :: rest else p :: setKey rest k v

/-- Dict deletion `del m[k]`: remove the entry with key `k` (dict keys are
unique, so removing the first matching entry is exact). -/
def eraseKey : List (Int × LeaseRecord) → Int → List (Int × LeaseRecord)
  | [], _ => []
  | p :: rest, k => if p.1 = k then rest else p :: eraseKey rest k

/-- The full id range `[0, 50]`, as ints. -/
def fullRange : List Int := (List.range 51).map fun n : Nat => (n : Int)

/-- The initial state written by `_init_state`: `available.json` is
`list(range(50, -1, -1))` = `[50, 49, ..., 0]`, `active.json` is `[]`,
`vm_map.json` is `{}`. -/
def initState : PoolState := ⟨fullRange.reverse, [], []⟩

/-- `VMStateManager.allocate_vm(vm_id)`: if `vm_id in available`, remove it
from `available` (Python `list.remove`, first occurrence) and append it to
`active`. -/
def allocate_vm (s : PoolState) (vm_id : Int) : PoolState :=
  if vm_id ∈ s.available then
    ⟨s.available.erase vm_id, s.active ++ [vm_id], s.vmMap⟩
  else s

/-- `VMStateManager.release_vm(vm_id)`: if `vm_id in active`, remove it from
`active` and append it to `available`. -/
def release_vm (s : PoolState) (vm_id : Int) : PoolState :=
  if vm_id ∈ s.active then
    ⟨s.available ++ [vm_id], s.active.erase vm_id, s.vmMap⟩
  else s

/-- `VMStateManager.update_vm_map(vm_id, data)`: `vm_map[vm_id] = data`. -/
def update_vm_map (s : PoolState) (vm_id : Int) (data : LeaseRecord) : PoolState :=
  ⟨s.available, s.active, setKey s.vmMap vm_id data⟩

/-- `VMStateManager.remove_vm_map(vm_id)`: delete the map entry if present.
(Defined in the source but never called by any handler.) -/
def remove_vm_map (s : PoolState) (vm_id : Int) : PoolState :=
  if (getKey? s.vmMap vm_id).isSome then
    ⟨s.available, s.active, eraseKey s.vmMap vm_id⟩
  else s

/-- `_get_available_vm()`: if `available` is empty raise
`Exception("No available VMs")` (state untouched); otherwise take
`available[-1]` and `allocate_vm` it.  Returns the outcome together with the
resulting state. -/
def get_available_vm (s : PoolState) : Except String Int × PoolState :=
  match s.available.getLast? with
  | none => (.error "No available VMs", s)
  | some vm_id => (.ok vm_id, allocate_vm s vm_id)

/-- `_release_vm(vm_id)` with an integer argument: only ids `≤ 50` are passed
on to `release_vm`; everything else is ignored. -/
def release_vm_single (s : PoolState) (vm_id : Int) : PoolState :=
  if vm_id ≤ 50 then release_vm s vm_id else s

/-- `_release_vm("all")`: snapshot `active`, then `release_vm` each id of the
snapshot in order. -/
def release_vm_all (s : PoolState) : PoolState :=
  s.active.foldl release_vm s

/-- The validation performed by `_get_vm_env(vm_id)`: raise
`Exception(f"VM ID {vm_id} not available")` when `vm_id not in active`
(the `DesktopEnv` construction itself is external and stateless here). -/
def get_vm_env_check (s : PoolState) (vm_id : Int) : Except String Unit :=
  if vm_id ∈ s.active then .ok () else .error ("VM ID " ++ toString vm_id ++ " not available")

/-- `_set_timeout(vm_id, timeout)`: unconditionally write
`vm_map[vm_id] = {"timeout": timeout, "lifetime": timeout}` (no `"visited"`
key, no check that `vm_id` is leased). -/
def set_timeout (s : PoolState) (vm_id : Int) (timeout : Int) : PoolState :=
  update_vm_map s vm_id ⟨some timeout, some timeout, none⟩

/-- The body of the reaper loop for a single leased id `vm_id`
(from `_check_timeout`):
`entry = current_map.get(vm_id, {})`; if `entry.get("visited", False)` is
false, `entry["lifetime"] = max(0, entry.get("lifetime", 0) - 60)`, else
clear `"visited"` and set `entry["lifetime"] = entry.get("timeout", 0)`;
then if `entry["lifetime"] <= 0`, append `vm_id` to `available`, remove it
from `active`, and delete its map entry if present.  Mutating `entry` writes
through to `current_map` exactly when the key was present (dict aliasing);
the fresh `{}` of a missing key is never inserted. -/
def reapOne (st : PoolState) (vm_id : Int) : PoolState :=
  match getKey? st.vmMap vm_id with
  | some entry =>
    let newEntry :=
      if entry.visited.getD false = false then
        { entry with lifetime := some (max 0 (entry.lifetime.getD 0 - 60)) }
      else
        { entry with visited := some false, lifetime := some (entry.timeout.getD 0) }
    if newEntry.lifetime.getD 0 ≤ 0 then
      ⟨st.available ++ [vm_id], st.active.erase vm_id, eraseKey st.vmMap vm_id⟩
    else
      ⟨st.available, st.active, setKey st.vmMap vm_id newEntry⟩
  | none =>
    if (max 0 (0 - 60) : Int) ≤ 0 then
      ⟨st.available ++ [vm_id], st.active.erase vm_id, st.vmMap⟩
    else st

/-- One sweep of `_check_timeout` (one iteration of its `while True` loop):
snapshot `active`, then process each id of the snapshot in order, and write
all three collections back. -/
def check_timeout_sweep (s : PoolState) : PoolState :=
  s.active.foldl reapOne s

/-- The `GET /screenshot` handler's effect on the pool: validate the id via
`_get_vm_env`; on failure return the 400 message.  The pool state is never
mutated. -/
def screenshot_handler (s : PoolState) (vm_id : Int) : Except String Unit × PoolState :=
  match get_vm_env_check s vm_id with
  | .ok _ => (.ok (), s)
  | .error msg => (.error msg, s)

/-- The `POST /step` handler's effect on the pool: validate the id via
`_get_vm_env`; the external `env.step` outcome `done` is a parameter; when
`done` the handler calls `_release_vm(vm_id)`, otherwise the pool state is
untouched. -/
def step_handler (s : PoolState) (vm_id : Int) (done : Bool) : Except String Unit × PoolState :=
  match get_vm_env_check s vm_id with
  | .ok _ => (.ok (), if done then release_vm_single s vm_id else s)
  | .error msg => (.error msg, s)

/-- The state-mutating operations of the pool core, as named by the spec:
allocate (`_get_available_vm`), release of a single id or of `"all"`
(`_release_vm`), setLease (`_set_timeout`), and one reaper sweep
(`_check_timeout` body). -/
inductive Op where
  | allocate : Op
  | release : Int → Op
  | releaseAll : Op
  | setLease : Int → Int → Op
  | sweep : Op
deriving DecidableEq, Repr

/-- Apply one operation to the pool state. -/
def applyOp (s : PoolState) : Op → PoolState
  | .allocate => (get_available_vm s).2
  | .release i => release_vm_single s i
  | .releaseAll => release_vm_all s
  | .setLease i t => set_timeout s i t
  | .sweep => check_timeout_sweep s

/-- Run a sequence of operations from the initial state. -/
def run (ops : List Op) : PoolState := ops.foldl applyOp initState

/-- The pool invariant, packaged as one permutation: the free list followed
by the leased list is a permutation of the full id range.  This single
statement yields disjointness, the union property, and freedom from
duplicates. -/
def Inv (s : PoolState) : Prop := (s.available ++ s.active).Perm fullRange

/-- The remaining lifetime the reaper computes for a record `r` in one sweep:
if the heartbeat flag is set, the full timeout budget; otherwise the old
lifetime decremented by the sweep interval 60, floored at 0 (each field read
with the dict default used in `_check_timeout`). -/
def newLife (r : LeaseRecord) : Int :=
  if r.visited.getD false = false then max 0 (r.lifetime.getD 0 - 60) else r.timeout.getD 0

/-- The record the reaper writes back for a surviving lease: lifetime set to
`newLife r`, and the heartbeat flag cleared when it was consumed. -/
def updEntry (r : LeaseRecord) : LeaseRecord :=
  if r.visited.getD false = false then { r with lifetime := some (newLife r) }
  else { r with visited := some false, lifetime := some (newLife r) }

/-! ### Lemmas about the lease-record map -/

theorem getKey?_setKey_self (m : List (Int × LeaseRecord)) (k : Int) (v : LeaseRecord) :
    getKey? (setKey m k v) k = some v := by
  induction m with
  | nil => simp [setKey, getKey?]
  | cons p rest ih =>
    by_cases h : p.1 = k
    · simp [setKey, getKey?, h]
    · simp [setKey, getKey?, h, ih]

theorem getKey?_setKey_ne (m : List (Int × LeaseRecord)) (k k' : Int) (v : LeaseRecord)
    (h : k' ≠ k) : getKey? (setKey m k v) k' = getKey? m k' := by
  induction m with
  | nil => simp [setKey, getKey?, Ne.symm h]
  | cons p rest ih =>
    by_cases hp : p.1 = k
    · have hpk' : ¬p.1 = k' := by rw [hp]; exact Ne.symm h
      simp [setKey, getKey?, hp, hpk', Ne.symm h]
    · simp [setKey, getKey?, hp, ih]

theorem getKey?_eraseKey_ne (m : List (Int × LeaseRecord)) (k k' : Int)
    (h : k' ≠ k) : getKey? (eraseKey m k) k' = getKey? m k' := by
  induction m with
  | nil => rfl
  | cons p rest ih =>
    by_cases hp : p.1 = k
    · have hpk' : ¬p.1 = k' := by rw [hp]; exact Ne.symm h
      simp [eraseKey, getKey?, hp, hpk', Ne.symm h]
    · simp [eraseKey, getKey?, hp, ih]

theorem getKey?_eq_none_of_not_mem_keys (m : List (Int × LeaseRecord)) (k : Int)
    (h : k ∉ m.map Prod.fst) : getKey? m k = none := by
  induction m with
  | nil => rfl
  | cons p rest ih =>
    simp only [List.map_cons, List.mem_cons] at h
    push_neg at h
    simp [getKey?, Ne.symm h.1, ih h.2]

theorem getKey?_eraseKey_self (m : List (Int × LeaseRecord)) (k : Int)
    (hnd : (m.map Prod.fst).Nodup) : getKey? (eraseKey m k) k = none := by
  induction m with
  | nil => rfl
  | cons p rest ih =>
    simp only [List.map_cons, List.nodup_cons] at hnd
    by_cases hp : p.1 = k
    · subst hp
      simpa [eraseKey] using getKey?_eq_none_of_not_mem_keys rest p.1 hnd.1
    · simp [eraseKey, getKey?, hp, ih hnd.2]

theorem mem_keys_setKey (m : List (Int × LeaseRecord)) (k : Int) (v : LeaseRecord) (a : Int) :
    a ∈ (setKey m k v).map Prod.fst ↔ a = k ∨ a ∈ m.map Prod.fst := by
  induction m with
  | nil => simp [setKey]
  | cons p rest ih =>
    by_cases hp : p.1 = k
    · subst hp
      have hs : setKey (p :: rest) p.1 v = (p.1, v) :: rest := by simp [setKey]
      rw [hs]
      simp only [List.map_cons, List.mem_cons]
      tauto
    · have hs : setKey (p :: rest) k v = p :: setKey rest k v := by simp [setKey, hp]
      rw [hs]
      simp only [List.map_cons, List.mem_cons, ih]
      tauto

theorem setKey_keys_nodup (m : List (Int × LeaseRecord)) (k : Int) (v : LeaseRecord)
    (h : (m.map Prod.fst).Nodup) : ((setKey m k v).map Prod.fst).Nodup := by
  induction m with
  | nil => simp [setKey]
  | cons p rest ih =>
    simp only [List.map_cons, List.nodup_cons] at h
    by_cases hp : p.1 = k
    · subst hp
      simpa [setKey] using h
    · simp only [setKey, if_neg hp, List.map_cons, List.nodup_cons]
      refine ⟨?_, ih h.2⟩
      rw [mem_keys_setKey]
      rintro (rfl | hmem)
      · exact hp rfl
      · exact h.1 hmem

theorem mem_keys_of_mem_keys_eraseKey (m : List (Int × LeaseRecord)) (k a : Int)
    (h : a ∈ (eraseKey m k).map Prod.fst) : a ∈ m.map Prod.fst := by
  induction m with
  | nil => simpa [eraseKey] using h
  | cons p rest ih =>
    by_cases hp : p.1 = k
    · simp only [eraseKey, if_pos hp] at h
      simp [h]
    · simp only [eraseKey, if_neg hp, List.map_cons, List.mem_cons] at h ⊢
      rcases h with h | h
      · exact Or.inl h
      · exact Or.inr (ih h)

theorem eraseKey_keys_nodup (m : List (Int × LeaseRecord)) (k : Int)
    (h : (m.map Prod.fst).Nodup) : ((eraseKey m k).map Prod.fst).Nodup := by
  induction m with
  | nil => simp [eraseKey]
  | cons p rest ih =>
    simp only [List.map_cons, List.nodup_cons] at h
    by_cases hp : p.1 = k
    · simpa [eraseKey, hp] using h.2
    · simp only [eraseKey, if_neg hp, List.map_cons, List.nodup_cons]
      exact ⟨fun hmem => h.1 (mem_keys_of_mem_keys_eraseKey rest k p.1 hmem), ih h.2⟩

/-! ### Permutation lemmas for moving an id between the two lists -/

theorem move_to_active_perm (l₁ l₂ : List Int) (a : Int) (h : a ∈ l₁) :
    List.Perm (l₁.erase a ++ (l₂ ++ [a])) (l₁ ++ l₂) := by
  have h2 : List.Perm (l₁.erase a ++ (l₂ ++ [a])) (l₁.erase a ++ (a :: l₂)) :=
    List.Perm.append_left _ List.perm_append_comm
  have h4 : List.Perm (l₁.erase a ++ (a :: l₂)) (a :: (l₁.erase a ++ l₂)) :=
    List.perm_middle
  have h3 : List.Perm ((a :: l₁.erase a) ++ l₂) (l₁ ++ l₂) :=
    List.Perm.append_right l₂ (List.perm_cons_erase h).symm
  exact h2.trans (h4.trans h3)

theorem move_to_available_perm (l₁ l₂ : List Int) (a : Int) (h : a ∈ l₂) :
    List.Perm ((l₁ ++ [a]) ++ l₂.erase a) (l₁ ++ l₂) := by
  have h2 : List.Perm (l₁ ++ ([a] ++ l₂.erase a)) (l₁ ++ l₂) :=
    List.Perm.append_left l₁ (List.perm_cons_erase h).symm
  simpa [List.append_assoc] using h2

/-! ### The pool invariant is preserved by every operation -/

theorem fullRange_nodup : fullRange.Nodup := by
  have hinj : Function.Injective (fun n : Nat => (n : Int)) := fun a b hab => by
    have : (a : Int) = (b : Int) := hab
    exact_mod_cast this
  exact List.Nodup.map hinj (List.nodup_range 51)

theorem mem_fullRange (i : Int) : i ∈ fullRange ↔ 0 ≤ i ∧ i ≤ 50 := by
  simp only [fullRange, List.mem_map, List.mem_range]
  constructor
  · rintro ⟨n, hn, rfl⟩
    omega
  · rintro ⟨h0, h50⟩
    exact ⟨i.toNat, by omega, by omega⟩

theorem inv_initState : Inv initState := by
  simpa [Inv, initState] using List.reverse_perm fullRange

theorem active_nodup_of_inv {s : PoolState} (h : Inv s) : s.active.Nodup :=
  (h.nodup_iff.mpr fullRange_nodup).of_append_right

theorem available_nodup_of_inv {s : PoolState} (h : Inv s) : s.available.Nodup :=
  (h.nodup_iff.mpr fullRange_nodup).of_append_left

theorem inv_allocate_vm (s : PoolState) (a : Int) (h : Inv s) : Inv (allocate_vm s a) := by
  unfold allocate_vm
  by_cases hm : a ∈ s.available
  · rw [if_pos hm]
    exact (move_to_active_perm s.available s.active a hm).trans h
  · rwa [if_neg hm]

theorem inv_release_vm (s : PoolState) (a : Int) (h : Inv s) : Inv (release_vm s a) := by
  unfold release_vm
  by_cases hm : a ∈ s.active
  · rw [if_pos hm]
    exact (move_to_available_perm s.available s.active a hm).trans h
  · rwa [if_neg hm]

theorem inv_get_available_vm (s : PoolState) (h : Inv s) : Inv (get_available_vm s).2 := by
  unfold get_available_vm
  cases hg : s.available.getLast? with
  | none => exact h
  | some a => exact inv_allocate_vm s a h

theorem inv_release_vm_single (s : PoolState) (a : Int) (h : Inv s) :
    Inv (release_vm_single s a) := by
  unfold release_vm_single
  by_cases hle : a ≤ 50
  · rw [if_pos hle]
    exact inv_release_vm s a h
  · rwa [if_neg hle]

theorem inv_foldl_release_vm (l : List Int) (s : PoolState) (h : Inv s) :
    Inv (l.foldl release_vm s) := by
  induction l generalizing s with
  | nil => exact h
  | cons x t ih => exact ih (release_vm s x) (inv_release_vm s x h)

theorem inv_set_timeout (s : PoolState) (a t : Int) (h : Inv s) : Inv (set_timeout s a t) := h

theorem visited_true_of_not_false {r : LeaseRecord} (h : ¬r.visited.getD false = false) :
    r.visited.getD false = true := by
  revert h
  cases r.visited.getD false <;> simp

theorem reapOne_eq_of_some (st : PoolState) (x : Int) (r : LeaseRecord)
    (h : getKey? st.vmMap x = some r) :
    reapOne st x =
      if newLife r ≤ 0 then
        ⟨st.available ++ [x], st.active.erase x, eraseKey st.vmMap x⟩
      else
        ⟨st.available, st.active, setKey st.vmMap x (updEntry r)⟩ := by
  unfold reapOne
  rw [h]
  by_cases hv : r.visited.getD false = false
  · simp [newLife, updEntry, hv]
  · simp [newLife, updEntry, visited_true_of_not_false hv]

theorem reapOne_eq_of_none (st : PoolState) (x : Int)
    (h : getKey? st.vmMap x = none) :
    reapOne st x = ⟨st.available ++ [x], st.active.erase x, st.vmMap⟩ := by
  unfold reapOne
  rw [h]
  norm_num

theorem reapOne_active_eq_or (s : PoolState) (x : Int) :
    (reapOne s x).active = s.active ∨ (reapOne s x).active = s.active.erase x := by
  cases hv : getKey? s.vmMap x with
  | some r =>
    rw [reapOne_eq_of_some s x r hv]
    by_cases hl : newLife r ≤ 0
    · rw [if_pos hl]
      exact Or.inr rfl
    · rw [if_neg hl]
      exact Or.inl rfl
  | none =>
    rw [reapOne_eq_of_none s x hv]
    exact Or.inr rfl

theorem reapOne_available_eq_or (s : PoolState) (x : Int) :
    (reapOne s x).available = s.available ∨ (reapOne s x).available = s.available ++ [x] := by
  cases hv : getKey? s.vmMap x with
  | some r =>
    rw [reapOne_eq_of_some s x r hv]
    by_cases hl : newLife r ≤ 0
    · rw [if_pos hl]
      exact Or.inr rfl
    · rw [if_neg hl]
      exact Or.inl rfl
  | none =>
    rw [reapOne_eq_of_none s x hv]
    exact Or.inr rfl

theorem inv_reapOne (s : PoolState) (a : Int) (h : Inv s) (ha : a ∈ s.active) :
    Inv (reapOne s a) := by
  cases hv : getKey? s.vmMap a with
  | some r =>
    rw [reapOne_eq_of_some s a r hv]
    by_cases hl : newLife r ≤ 0
    · rw [if_pos hl]
      exact (move_to_available_perm s.available s.active a ha).trans h
    · rw [if_neg hl]
      exact h
  | none =>
    rw [reapOne_eq_of_none s a hv]
    exact (move_to_available_perm s.available s.active a ha).trans h

theorem inv_foldl_reapOne (l : List Int) (s : PoolState) (h : Inv s)
    (hsub : ∀ x ∈ l, x ∈ s.active) (hnd : l.Nodup) : Inv (l.foldl reapOne s) := by
  induction l generalizing s with
  | nil => exact h
  | cons x t ih =>
    have hx : x ∈ s.active := hsub x (List.mem_cons_self x t)
    have hinv' : Inv (reapOne s x) := inv_reapOne s x h hx
    refine ih (reapOne s x) hinv' (fun y hy => ?_) (List.nodup_cons.mp hnd).2
    have hyx : y ≠ x := fun e => (List.nodup_cons.mp hnd).1 (e ▸ hy)
    have hys : y ∈ s.active := hsub y (List.mem_cons_of_mem x hy)
    rcases reapOne_active_eq_or s x with he | he <;> rw [he]
    · exact hys
    · exact (List.mem_erase_of_ne hyx).mpr hys

theorem inv_check_timeout_sweep (s : PoolState) (h : Inv s) : Inv (check_timeout_sweep s) :=
  inv_foldl_reapOne s.active s h (fun _ hx => hx) (active_nodup_of_inv h)

theorem inv_applyOp (s : PoolState) (op : Op) (h : Inv s) : Inv (applyOp s op) := by
  cases op with
  | allocate => exact inv_get_available_vm s h
  | release i => exact inv_release_vm_single s i h
  | releaseAll => exact inv_foldl_release_vm s.active s h
  | setLease i t => exact inv_set_timeout s i t h
  | sweep => exact inv_check_timeout_sweep s h

theorem inv_foldl_applyOp (ops : List Op) (s : PoolState) (h : Inv s) :
    Inv (ops.foldl applyOp s) := by
  induction ops generalizing s with
  | nil => exact h
  | cons op t ih => exact ih (applyOp s op) (inv_applyOp s op h)

theorem inv_run (ops : List Op) : Inv (run ops) :=
  inv_foldl_applyOp ops initState inv_initState

/-- C1: every state reachable from the initial state (free = the full id
range [0,50], leased = empty) by any sequence of allocate, release (single
or "all"), setLease and reaper-sweep operations has duplicate-free free and
leased lists, the two lists are disjoint, and their union is exactly the id
range [0,50]. -/
theorem pool_invariant (ops : List Op) :
    (run ops).available.Nodup ∧ (run ops).active.Nodup ∧
    (∀ i : Int, ¬(i ∈ (run ops).available ∧ i ∈ (run ops).active)) ∧
    (∀ i : Int, (i ∈ (run ops).available ∨ i ∈ (run ops).active) ↔ 0 ≤ i ∧ i ≤ 50) := by
  have hinv : Inv (run ops) := inv_run ops
  have hnodapp : ((run ops).available ++ (run ops).active).Nodup :=
    hinv.nodup_iff.mpr fullRange_nodup
  refine ⟨hnodapp.of_append_left, hnodapp.of_append_right, ?_, ?_⟩
  · rintro i ⟨h1, h2⟩
    exact List.disjoint_of_nodup_append hnodapp h1 h2
  · intro i
    rw [← List.mem_append, hinv.mem_iff, mem_fullRange]

/-! ### Frame lemmas: what `reapOne` on one id does to any other id -/

theorem reapOne_getKey_ne (s : PoolState) (x id : Int) (h : id ≠ x) :
    getKey? (reapOne s x).vmMap id = getKey? s.vmMap id := by
  cases hv : getKey? s.vmMap x with
  | some r =>
    rw [reapOne_eq_of_some s x r hv]
    by_cases hl : newLife r ≤ 0
    · rw [if_pos hl]
      exact getKey?_eraseKey_ne s.vmMap x id h
    · rw [if_neg hl]
      exact getKey?_setKey_ne s.vmMap x id (updEntry r) h
  | none =>
    rw [reapOne_eq_of_none s x hv]

theorem reapOne_mem_active_iff (s : PoolState) (x id : Int) (h : id ≠ x) :
    id ∈ (reapOne s x).active ↔ id ∈ s.active := by
  rcases reapOne_active_eq_or s x with he | he
  · rw [he]
  · rw [he]
    exact List.mem_erase_of_ne h

theorem reapOne_avail_mono (s : PoolState) (x id : Int) (h : id ∈ s.available) :
    id ∈ (reapOne s x).available := by
  rcases reapOne_available_eq_or s x with he | he <;> rw [he]
  · exact h
  · exact List.mem_append_left _ h

theorem reapOne_not_mem_active (s : PoolState) (x id : Int) (h : id ∉ s.active) :
    id ∉ (reapOne s x).active := by
  rcases reapOne_active_eq_or s x with he | he <;> rw [he]
  · exact h
  · exact fun hm => h (List.mem_of_mem_erase hm)

theorem reapOne_active_nodup (s : PoolState) (x : Int) (h : s.active.Nodup) :
    (reapOne s x).active.Nodup := by
  rcases reapOne_active_eq_or s x with he | he <;> rw [he]
  · exact h
  · exact h.erase x

theorem reapOne_keys_nodup (s : PoolState) (x : Int) (h : (s.vmMap.map Prod.fst).Nodup) :
    ((reapOne s x).vmMap.map Prod.fst).Nodup := by
  cases hv : getKey? s.vmMap x with
  | some r =>
    rw [reapOne_eq_of_some s x r hv]
    by_cases hl : newLife r ≤ 0
    · rw [if_pos hl]
      exact eraseKey_keys_nodup s.vmMap x h
    · rw [if_neg hl]
      exact setKey_keys_nodup s.vmMap x (updEntry r) h
  | none =>
    rw [reapOne_eq_of_none s x hv]
    exact h

theorem foldl_reapOne_getKey_ne (l : List Int) (s : PoolState) (id : Int) (h : id ∉ l) :
    getKey? ((l.foldl reapOne s).vmMap) id = getKey? s.vmMap id := by
  induction l generalizing s with
  | nil => rfl
  | cons x t ih =>
    have hx : id ≠ x := fun e => h (e ▸ List.mem_cons_self x t)
    have ht : id ∉ t := fun hm => h (List.mem_cons_of_mem x hm)
    rw [List.foldl_cons, ih (reapOne s x) ht, reapOne_getKey_ne s x id hx]

theorem foldl_reapOne_mem_active (l : List Int) (s : PoolState) (id : Int) (h : id ∉ l) :
    id ∈ (l.foldl reapOne s).active ↔ id ∈ s.active := by
  induction l generalizing s with
  | nil => exact Iff.rfl
  | cons x t ih =>
    have hx : id ≠ x := fun e => h (e ▸ List.mem_cons_self x t)
    have ht : id ∉ t := fun hm => h (List.mem_cons_of_mem x hm)
    rw [List.foldl_cons]
    exact (ih (reapOne s x) ht).trans (reapOne_mem_active_iff s x id hx)

theorem foldl_reapOne_avail_mono (l : List Int) (s : PoolState) (id : Int)
    (h : id ∈ s.available) : id ∈ (l.foldl reapOne s).available := by
  induction l generalizing s with
  | nil => exact h
  | cons x t ih => exact ih (reapOne s x) (reapOne_avail_mono s x id h)

theorem foldl_reapOne_not_mem_active (l : List Int) (s : PoolState) (id : Int)
    (h : id ∉ s.active) : id ∉ (l.foldl reapOne s).active := by
  induction l generalizing s with
  | nil => exact h
  | cons x t ih => exact ih (reapOne s x) (reapOne_not_mem_active s x id h)

theorem foldl_reapOne_active_nodup (l : List Int) (s : PoolState) (h : s.active.Nodup) :
    (l.foldl reapOne s).active.Nodup := by
  induction l generalizing s with
  | nil => exact h
  | cons x t ih => exact ih (reapOne s x) (reapOne_active_nodup s x h)

theorem foldl_reapOne_keys_nodup (l : List Int) (s : PoolState)
    (h : (s.vmMap.map Prod.fst).Nodup) : ((l.foldl reapOne s).vmMap.map Prod.fst).Nodup := by
  induction l generalizing s with
  | nil => exact h
  | cons x t ih => exact ih (reapOne s x) (reapOne_keys_nodup s x h)

theorem sweep_eq_foldl_parts (s : PoolState) (l₁ l₂ : List Int) (id : Int)
    (hsplit : s.active = l₁ ++ id :: l₂) :
    check_timeout_sweep s = l₂.foldl reapOne (reapOne (l₁.foldl reapOne s) id) := by
  unfold check_timeout_sweep
  rw [hsplit, List.foldl_append, List.foldl_cons]

theorem split_not_mem (l₁ l₂ : List Int) (id : Int) (hnd : (l₁ ++ id :: l₂).Nodup) :
    id ∉ l₁ ∧ id ∉ l₂ :=
  ⟨fun hm => List.disjoint_of_nodup_append hnd hm (List.mem_cons_self id l₂),
   (List.nodup_cons.mp hnd.of_append_right).1⟩

/-- C2: one reaper sweep, for a leased `id` whose lease record is `r`:
the record's new lifetime is `newLife r` (reset to the timeout budget when
the heartbeat flag was set, otherwise decremented by the sweep interval 60
and floored at 0).  If that new lifetime is ≤ 0 the id is moved from leased
to free and its lease record is deleted; otherwise the id stays leased and
its record becomes `updEntry r` (lifetime updated, heartbeat flag
cleared when it had been consumed). -/
theorem reaper_sweep_per_lease (s : PoolState) (id : Int) (r : LeaseRecord)
    (hnd : s.active.Nodup) (hkeys : (s.vmMap.map Prod.fst).Nodup)
    (hmem : id ∈ s.active) (hr : getKey? s.vmMap id = some r) :
    (newLife r ≤ 0 →
      id ∈ (check_timeout_sweep s).available ∧ id ∉ (check_timeout_sweep s).active ∧
        getKey? (check_timeout_sweep s).vmMap id = none) ∧
    (0 < newLife r →
      id ∈ (check_timeout_sweep s).active ∧
        getKey? (check_timeout_sweep s).vmMap id = some (updEntry r)) := by
  obtain ⟨l₁, l₂, hsplit⟩ := List.append_of_mem hmem
  have hrw := sweep_eq_foldl_parts s l₁ l₂ id hsplit
  have hnd' : (l₁ ++ id :: l₂).Nodup := hsplit ▸ hnd
  obtain ⟨hid1, hid2⟩ := split_not_mem l₁ l₂ id hnd'
  have hk₁ : getKey? (l₁.foldl reapOne s).vmMap id = some r :=
    (foldl_reapOne_getKey_ne l₁ s id hid1).trans hr
  have hm₁ : id ∈ (l₁.foldl reapOne s).active :=
    (foldl_reapOne_mem_active l₁ s id hid1).mpr hmem
  have hnd₁ : (l₁.foldl reapOne s).active.Nodup := foldl_reapOne_active_nodup l₁ s hnd
  have hkeys₁ : ((l₁.foldl reapOne s).vmMap.map Prod.fst).Nodup :=
    foldl_reapOne_keys_nodup l₁ s hkeys
  have hstep := reapOne_eq_of_some (l₁.foldl reapOne s) id r hk₁
  constructor
  · intro hlife
    rw [hrw, hstep, if_pos hlife]
    refine ⟨?_, ?_, ?_⟩
    · exact foldl_reapOne_avail_mono l₂ _ id
        (List.mem_append_right _ (List.mem_singleton.mpr rfl))
    · exact foldl_reapOne_not_mem_active l₂ _ id hnd₁.not_mem_erase
    · exact (foldl_reapOne_getKey_ne l₂ _ id hid2).trans
        (getKey?_eraseKey_self (l₁.foldl reapOne s).vmMap id hkeys₁)
  · intro hlife
    rw [hrw, hstep, if_neg (not_le.mpr hlife)]
    refine ⟨?_, ?_⟩
    · exact (foldl_reapOne_mem_active l₂ _ id hid2).mpr hm₁
    · exact (foldl_reapOne_getKey_ne l₂ _ id hid2).trans
        (getKey?_setKey_self (l₁.foldl reapOne s).vmMap id (updEntry r))

/-- C2 witness: a lease with `timeout_budget = 120`.  Two sweeps with no
heartbeat move id 7 from leased to free and delete its record; one sweep on
the intermediate state with the heartbeat flag set keeps it leased with
`remaining_lifetime` reset to 120 and the flag cleared. -/
theorem reaper_sweep_per_lease_witness :
    (7 ∈ (check_timeout_sweep (check_timeout_sweep
        ⟨[], [7], [(7, ⟨some 120, some 120, none⟩)]⟩)).available ∧
      7 ∉ (check_timeout_sweep (check_timeout_sweep
        ⟨[], [7], [(7, ⟨some 120, some 120, none⟩)]⟩)).active ∧
      getKey? (check_timeout_sweep (check_timeout_sweep
        ⟨[], [7], [(7, ⟨some 120, some 120, none⟩)]⟩)).vmMap 7 = none) ∧
    (7 ∈ (check_timeout_sweep ⟨[], [7], [(7, ⟨some 120, some 60, some true⟩)]⟩).active ∧
      getKey? (check_timeout_sweep
        ⟨[], [7], [(7, ⟨some 120, some 60, some true⟩)]⟩).vmMap 7 =
          some ⟨some 120, some 120, some false⟩) := by
  constructor
  · exact (reaper_sweep_per_lease
      (check_timeout_sweep ⟨[], [7], [(7, ⟨some 120, some 120, none⟩)]⟩) 7
      ⟨some 120, some 60, none⟩ (by decide) (by decide) (by decide) (by decide)).1 (by decide)
  · have h := (reaper_sweep_per_lease
      ⟨[], [7], [(7, ⟨some 120, some 60, some true⟩)]⟩ 7
      ⟨some 120, some 60, some true⟩ (by decide) (by decide) (by decide) (by decide)).2
      (by decide)
    exact ⟨h.1, h.2.trans (by decide)⟩

/-- C10: a leased id with no lease record at all (for example allocated but
never given a timeout) is treated as having remaining lifetime 0 and is
moved from leased to free by a single reaper sweep. -/
theorem sweep_reclaims_recordless (s : PoolState) (id : Int)
    (hnd : s.active.Nodup) (hmem : id ∈ s.active) (hr : getKey? s.vmMap id = none) :
    id ∈ (check_timeout_sweep s).available ∧ id ∉ (check_timeout_sweep s).active := by
  obtain ⟨l₁, l₂, hsplit⟩ := List.append_of_mem hmem
  have hrw := sweep_eq_foldl_parts s l₁ l₂ id hsplit
  have hnd' : (l₁ ++ id :: l₂).Nodup := hsplit ▸ hnd
  obtain ⟨hid1, hid2⟩ := split_not_mem l₁ l₂ id hnd'
  have hk₁ : getKey? (l₁.foldl reapOne s).vmMap id = none :=
    (foldl_reapOne_getKey_ne l₁ s id hid1).trans hr
  have hnd₁ : (l₁.foldl reapOne s).active.Nodup := foldl_reapOne_active_nodup l₁ s hnd
  rw [hrw, reapOne_eq_of_none (l₁.foldl reapOne s) id hk₁]
  constructor
  · exact foldl_reapOne_avail_mono l₂ _ id
      (List.mem_append_right _ (List.mem_singleton.mpr rfl))
  · exact foldl_reapOne_not_mem_active l₂ _ id hnd₁.not_mem_erase

/-- C10 witness: after a single allocate (which leases id 0 and creates no
lease record), one sweep moves id 0 back to the free list. -/
theorem sweep_reclaims_recordless_witness :
    0 ∈ (check_timeout_sweep (run [Op.allocate])).available ∧
    0 ∉ (check_timeout_sweep (run [Op.allocate])).active :=
  sweep_reclaims_recordless (run [Op.allocate]) 0 (by decide) (by decide) (by decide)

/-! ### Allocation pops the end of the free list -/

theorem erase_getLast_eq_dropLast (l : List Int) (a : Int)
    (h : l.getLast? = some a) (hnd : l.Nodup) : l.erase a = l.dropLast := by
  induction l with
  | nil => cases h
  | cons x t ih =>
    cases t with
    | nil =>
      have hax : a = x := by
        have hx : (some x : Option Int) = some a := h
        exact (Option.some.inj hx).symm
      subst hax
      simp
    | cons y t' =>
      rw [List.getLast?_cons_cons] at h
      have hmem : a ∈ y :: t' := List.mem_of_getLast?_eq_some h
      have hx : x ∉ y :: t' := (List.nodup_cons.mp hnd).1
      have hxa : ¬(x == a) := by
        simp only [beq_iff_eq]
        rintro rfl
        exact hx hmem
      rw [List.erase_cons_tail hxa, ih h (List.nodup_cons.mp hnd).2, List.dropLast_cons₂]

/-- C3: whenever the free list is non-empty (it ends in some id `a`),
allocation is deterministic: `_get_available_vm` returns exactly the last
element of the free list, removes exactly that id from the free list (the
free list becomes its own `dropLast`, i.e. a stack pop from the end), and
appends the id to the leased list. -/
theorem allocate_pops_free_stack (s : PoolState) (a : Int)
    (hlast : s.available.getLast? = some a) (hnd : s.available.Nodup) :
    get_available_vm s =
      (.ok a, ⟨s.available.dropLast, s.active ++ [a], s.vmMap⟩) := by
  have hmem : a ∈ s.available := List.mem_of_getLast?_eq_some hlast
  unfold get_available_vm
  rw [hlast]
  dsimp only
  unfold allocate_vm
  rw [if_pos hmem, erase_getLast_eq_dropLast s.available a hlast hnd]

/-- C3 witness: in the initial state the free list is `[50, ..., 0]`, so the
first allocation returns id 0 and pops it off the end. -/
theorem allocate_pops_free_stack_witness :
    get_available_vm initState =
      (.ok 0, ⟨initState.available.dropLast, initState.active ++ [0], initState.vmMap⟩) :=
  allocate_pops_free_stack initState 0 (by decide) (by decide)

/-- C4: when the free list is empty, `_get_available_vm` fails with the
"No available VMs" error (the spec's `PoolExhausted`) and the pool state —
free list, leased list and lease records — is completely unchanged. -/
theorem allocate_exhausted_fails_cleanly (s : PoolState) (h : s.available = []) :
    get_available_vm s = (.error "No available VMs", s) := by
  have hl : s.available.getLast? = none := by rw [h]; rfl
  unfold get_available_vm
  rw [hl]

set_option maxRecDepth 8192 in
/-- C4 witness: after allocating all 51 ids of the range, the next allocate
fails with "No available VMs" and leaves the state unchanged. -/
theorem allocate_exhausted_fails_cleanly_witness :
    get_available_vm (run (List.replicate 51 Op.allocate)) =
      (.error "No available VMs", run (List.replicate 51 Op.allocate)) :=
  allocate_exhausted_fails_cleanly (run (List.replicate 51 Op.allocate)) (by decide)

/-- C5 counterexample: lease id 0 and give it a record via setLease; the
voluntary release moves id 0 out of the leased list, but its lease record is
still in the map afterwards — release does NOT delete the lease record,
contrary to the claim. -/
theorem release_does_not_delete_record_cex :
    0 ∈ (run [Op.allocate, Op.setLease 0 120]).active ∧
    0 ∉ (release_vm_single (run [Op.allocate, Op.setLease 0 120]) 0).active ∧
    getKey? (release_vm_single (run [Op.allocate, Op.setLease 0 120]) 0).vmMap 0 =
      some ⟨some 120, some 120, none⟩ := by
  decide

/-- C5 (amended): for every id currently leased (with `id ≤ 50`, as every
leased id is), release moves the id from leased to free but leaves the
lease-record map completely untouched: the record is not deleted by a
voluntary release — only the reaper deletes records. -/
theorem release_moves_id_keeps_record (s : PoolState) (id : Int)
    (hmem : id ∈ s.active) (hle : id ≤ 50) :
    release_vm_single s id = ⟨s.available ++ [id], s.active.erase id, s.vmMap⟩ := by
  unfold release_vm_single release_vm
  rw [if_pos hle, if_pos hmem]

/-- C5 witness: releasing the freshly allocated id 0. -/
theorem release_moves_id_keeps_record_witness :
    release_vm_single (run [Op.allocate]) 0 =
      ⟨(run [Op.allocate]).available ++ [0], (run [Op.allocate]).active.erase 0,
        (run [Op.allocate]).vmMap⟩ :=
  release_moves_id_keeps_record (run [Op.allocate]) 0 (by decide) (by decide)

/-- C6 counterexample: id 7 is not leased in the initial state, yet
setLease(7, 100) does not fail with UnknownLease: it mutates the state,
creating a lease record for the unleased id. -/
theorem set_lease_missing_check_cex :
    7 ∉ initState.active ∧
    getKey? (set_timeout initState 7 100).vmMap 7 = some ⟨some 100, some 100, none⟩ ∧
    set_timeout initState 7 100 ≠ initState := by
  decide

/-- C6 (amended): `setLease(id, timeout)` performs no leased-check and never
fails: for every id, leased or not, it creates or overwrites the lease
record with `timeout_budget = remaining_lifetime = timeout` and no heartbeat
flag (which reads as false), leaving the free and leased lists unchanged. -/
theorem set_lease_unconditional (s : PoolState) (id t : Int) :
    getKey? (set_timeout s id t).vmMap id = some ⟨some t, some t, none⟩ ∧
    (set_timeout s id t).available = s.available ∧
    (set_timeout s id t).active = s.active :=
  ⟨getKey?_setKey_self s.vmMap id ⟨some t, some t, none⟩, rfl, rfl⟩

/-- C7 counterexample: id 0 is leased with timeout budget 120; a successful
screenshot request on it does not set the heartbeat flag (it leaves the pool
state unchanged), and the next sweep therefore decrements the remaining
lifetime to 60 instead of resetting it to 120 — activity does not produce a
heartbeat, contrary to the claim. -/
theorem activity_no_heartbeat_cex :
    (screenshot_handler (run [Op.allocate, Op.setLease 0 120]) 0).1 = .ok () ∧
    (screenshot_handler (run [Op.allocate, Op.setLease 0 120]) 0).2 =
      run [Op.allocate, Op.setLease 0 120] ∧
    getKey? (check_timeout_sweep
      (screenshot_handler (run [Op.allocate, Op.setLease 0 120]) 0).2).vmMap 0 =
        some ⟨some 120, some 60, none⟩ :=
  ⟨rfl, by decide, by decide⟩

/-- C7 (amended): no request handler sets the heartbeat flag: a screenshot
request and a non-terminal step request leave the pool state — the free
list, the leased list and every lease record — completely unchanged, so the
next sweep decrements the remaining lifetime rather than resetting it. -/
theorem handlers_never_set_heartbeat (s : PoolState) (id : Int) :
    (screenshot_handler s id).2 = s ∧ (step_handler s id false).2 = s := by
  constructor
  · cases hv : get_vm_env_check s id with
    | ok u => simp [screenshot_handler, hv]
    | error m => simp [screenshot_handler, hv]
  · cases hv : get_vm_env_check s id with
    | ok u => simp [step_handler, hv]
    | error m => simp [step_handler, hv]

/-- C8: release is idempotent and total on states whose leased list is
duplicate-free (every reachable state is): releasing twice equals releasing
once, releasing an id that is not leased is a no-op, and releasing an id
above the range (> 50) is a no-op; no case fails. -/
theorem release_idempotent_total (s : PoolState) (id : Int) (hnd : s.active.Nodup) :
    release_vm_single (release_vm_single s id) id = release_vm_single s id ∧
    (id ∉ s.active → release_vm_single s id = s) ∧
    (50 < id → release_vm_single s id = s) := by
  have hnoop : ∀ (s' : PoolState), id ∉ s'.active → release_vm_single s' id = s' := by
    intro s' hn
    unfold release_vm_single release_vm
    by_cases hle : id ≤ 50
    · rw [if_pos hle, if_neg hn]
    · rw [if_neg hle]
  have hgt : ∀ (s' : PoolState), 50 < id → release_vm_single s' id = s' := by
    intro s' hg
    unfold release_vm_single
    rw [if_neg (by omega)]
  refine ⟨?_, hnoop s, hgt s⟩
  by_cases hle : id ≤ 50
  · by_cases hmem : id ∈ s.active
    · have h1 : release_vm_single s id = ⟨s.available ++ [id], s.active.erase id, s.vmMap⟩ := by
        unfold release_vm_single release_vm
        rw [if_pos hle, if_pos hmem]
      rw [h1]
      exact hnoop _ hnd.not_mem_erase
    · rw [hnoop s hmem, hnoop s hmem]
  · rw [hgt s (by omega), hgt s (by omega)]

/-- C8 witness: double release of the freshly allocated id 0. -/
theorem release_idempotent_total_witness :
    release_vm_single (release_vm_single (run [Op.allocate]) 0) 0 =
      release_vm_single (run [Op.allocate]) 0 :=
  (release_idempotent_total (run [Op.allocate]) 0 (by decide)).1

/-- C9: the session-handle validation of `_get_vm_env` fails with the
"not available" error exactly when the id is not currently leased; and in
particular, releasing a freshly allocated id (as POST /shutdown does) and
then immediately requesting a screenshot of it yields the 400 "not
available" error rather than a handle. -/
theorem session_handle_iff_leased :
    (∀ (s : PoolState) (id : Int),
      get_vm_env_check s id = .error ("VM ID " ++ toString id ++ " not available") ↔
        id ∉ s.active) ∧
    (screenshot_handler (release_vm_single (run [Op.allocate]) 0) 0).1 =
      .error ("VM ID " ++ toString (0 : Int) ++ " not available") := by
  constructor
  · intro s id
    unfold get_vm_env_check
    by_cases h : id ∈ s.active
    · simp [h]
    · simp [h]
  · rfl

end OSGym
